import Mathlib

/-!
Shallow embedding of the two graph-analysis scripts `analyze_graph.py` and
`main.py` (networkx-based degree statistics and shortest-path subgraph
extraction), together with proofs about the specification claims.

An edge-list file, after line splitting and integer parsing, is modelled as a
`List (ℤ × ℤ)` of parsed lines.  A networkx `Graph` is modelled as its
insertion-ordered dict-of-dicts adjacency structure: an association list from
each node to its insertion-ordered neighbour list.  Fallible Python calls
(`statistics.mean` / `statistics.median` on an empty sequence, `max` of an
empty list, `G.neighbors` of an absent node) are modelled with `Except`.
-/

/-- Errors raised by the Python runtime or its libraries that the scripts can
hit: `statistics.StatisticsError` (mean/median of an empty sequence),
`ValueError` (`max` of an empty list), and networkx's `NetworkXError`
complaining that a node is not in the graph (raised by `G.neighbors`). -/
inductive PyError where
  | statisticsError
  | valueError
  | nodeNotInGraph
deriving DecidableEq

/-- A networkx `Graph`: the adjacency dict `G._adj`, kept as an
insertion-ordered association list from a node to its insertion-ordered
neighbour list.  `nx.Graph` permits self-loops, so `u`'s neighbour list may
contain `u` itself. -/
structure Graph where
  adj : List (ℤ × List ℤ)
deriving DecidableEq

namespace Graph

/-- `list(G.nodes)`: the keys of the adjacency dict in insertion order. -/
def nodes (g : Graph) : List ℤ := g.adj.map Prod.fst

/-- `u in G`: membership test on the node dict. -/
def hasNode (g : Graph) (u : ℤ) : Bool := g.nodes.contains u

/-- `G._adj[u]` as an ordered list of neighbours; `none` when `u` is absent
(the situation in which networkx raises). -/
def neighborsList (g : Graph) (u : ℤ) : Option (List ℤ) :=
  (g.adj.find? (fun p => p.1 == u)).map Prod.snd

/-- The node-creation half of `G.add_edge`: `if u not in self._node:
self._adj[u] = {}` — append a fresh empty adjacency entry. -/
def addNode (g : Graph) (u : ℤ) : Graph :=
  if g.hasNode u then g else ⟨g.adj ++ [(u, [])]⟩

/-- The assignment `self._adj[u][v] = datadict`: append `v` to `u`'s
neighbour list unless already present (dict key update keeps order). -/
def addNbr (g : Graph) (u v : ℤ) : Graph :=
  ⟨g.adj.map (fun p =>
    if p.1 = u then (p.1, if p.2.contains v then p.2 else p.2 ++ [v]) else p)⟩

/-- `G.add_edge(u, v)`: ensure both endpoints exist as nodes, then record the
adjacency in both directions (for `u = v` the second assignment repeats the
first and is a no-op). -/
def add_edge (g : Graph) (u v : ℤ) : Graph :=
  (((g.addNode u).addNode v).addNbr u v).addNbr v u

/-- `G.number_of_nodes()` = `len(G._node)`. -/
def number_of_nodes (g : Graph) : ℕ := g.nodes.length

/-- The degree reported for one adjacency entry by networkx's `DegreeView`:
`len(self._adj[n]) + (n in self._adj[n])` (a self-loop counts twice). -/
def degreeEntry (p : ℤ × List ℤ) : ℕ :=
  p.2.length + (if p.1 ∈ p.2 then 1 else 0)

/-- `[deg for node, deg in graph.degree()]`: degrees in node insertion
order. -/
def degrees (g : Graph) : List ℕ := g.adj.map degreeEntry

/-- `G.number_of_edges()` = `G.size()` = sum of all degrees, floor-divided
by 2. -/
def number_of_edges (g : Graph) : ℕ := g.degrees.sum / 2

/-- `nx.density(G)`: `0` when there are no edges or at most one node, else
`2 * m / (n * (n - 1))` for the undirected graph. -/
def density (g : Graph) : ℚ :=
  let n := g.number_of_nodes
  let m := g.number_of_edges
  if m = 0 ∨ n ≤ 1 then 0
  else 2 * (m : ℚ) / ((n : ℚ) * ((n : ℚ) - 1))

/-- `G.has_edge(u, v)` ≈ `v in G._adj[u]` (false when `u` is absent). -/
def hasEdge (g : Graph) (u v : ℤ) : Bool :=
  match g.neighborsList u with
  | none => false
  | some l => l.contains v

/-- `G.subgraph(s)`: the subgraph induced on `s ∩ G.nodes` — absent members
of `s` are silently ignored; kept nodes and their neighbour lists retain the
original graph's iteration order. -/
def subgraph (g : Graph) (s : Finset ℤ) : Graph :=
  ⟨(g.adj.filter (fun p => decide (p.1 ∈ s))).map
    (fun p => (p.1, p.2.filter (fun v => decide (v ∈ s))))⟩

/-- `degree` of a single node: `0` default for a node with no adjacency
entry, otherwise the `DegreeView` count (self-loop counts twice). -/
def degreeOf (g : Graph) (u : ℤ) : ℕ :=
  match g.neighborsList u with
  | none => 0
  | some l => l.length + (if u ∈ l then 1 else 0)

end Graph

/-- `nx.read_edgelist`: fold `add_edge` over the parsed lines of the file,
starting from the empty graph. -/
def load_graph (lines : List (ℤ × ℤ)) : Graph :=
  lines.foldl (fun g e => g.add_edge e.1 e.2) ⟨[]⟩

/-- `statistics.mean` over a list of integer degrees: exact rational
`sum / len`, raising `StatisticsError` on an empty sequence. -/
def statsMean (l : List ℕ) : Except PyError ℚ :=
  if l.length = 0 then .error .statisticsError
  else .ok ((l.map (fun d => (d : ℚ))).sum / (l.length : ℚ))

/-- `statistics.median`: sort; raise on the empty sequence; for odd length
the middle element, for even length the mean of the two middle elements. -/
def statsMedian (l : List ℕ) : Except PyError ℚ :=
  let ls := l.mergeSort (fun a b => decide (a ≤ b))
  if l.length = 0 then .error .statisticsError
  else if l.length % 2 = 1 then .ok ((ls.getD (l.length / 2) 0 : ℚ))
  else .ok (((ls.getD (l.length / 2 - 1) 0 : ℚ) + (ls.getD (l.length / 2) 0 : ℚ)) / 2)

/-- Python `max` over a list, raising `ValueError` when it is empty. -/
def listMax (l : List ℕ) : Except PyError ℕ :=
  match l with
  | [] => .error .valueError
  | x :: xs => .ok (xs.foldl Nat.max x)

/-- Everything `get_and_print_stats` computes (and prints): node count, edge
count, density, the degree list, mean, median and maximum degree. -/
structure Stats where
  num_nodes : ℕ
  num_edges : ℕ
  density : ℚ
  degreeValues : List ℕ
  avg_degree : ℚ
  median_degree : ℚ
  max_degree : ℕ
deriving DecidableEq

/-- `get_and_print_stats` from `analyze_graph.py`: computes the counts and
density, collects the degree list, then evaluates `statistics.mean`,
`statistics.median` and `max` on it, in that order.  There is no guard for
the empty graph: on zero nodes the first failing call is `statistics.mean`
over the empty degree list. -/
def get_and_print_stats (g : Graph) : Except PyError Stats := do
  let degs := g.degrees
  let avg ← statsMean degs
  let med ← statsMedian degs
  let mx ← listMax degs
  pure ⟨g.number_of_nodes, g.number_of_edges, g.density, degs, avg, med, mx⟩

/-- Python list slice `l[:k]` for an integer `k`: the first `k` elements when
`k ≥ 0`; for negative `k`, all elements except the last `|k|` of them. -/
def pySlice {α : Type} (l : List α) (k : ℤ) : List α :=
  if 0 ≤ k then l.take k.toNat else l.take (l.length - (-k).toNat)

/-- The neighbour-collection loop of `get_path_subgraph`:
`for node in path: nodes_to_draw.update(list(graph.neighbors(node))[:max_neighbors])`,
raising networkx's node-not-in-graph error on an absent path node. -/
def collectNeighbors (g : Graph) (maxN : ℤ) :
    List ℤ → Finset ℤ → Except PyError (Finset ℤ)
  | [], s => .ok s
  | n :: rest, s =>
    match g.neighborsList n with
    | none => .error .nodeNotInGraph
    | some nbrs => collectNeighbors g maxN rest (s ∪ (pySlice nbrs maxN).toFinset)

/-- `get_path_subgraph` from `main.py`: start from `set(path)`, optionally
add up to `max_neighbors` (by a Python slice) of each path node's neighbours,
and return `graph.subgraph(nodes_to_draw)`. -/
def get_path_subgraph (g : Graph) (path : List ℤ)
    (show_neighbors : Bool) (max_neighbors : ℤ) : Except PyError Graph :=
  if show_neighbors then
    match collectNeighbors g max_neighbors path path.toFinset with
    | .error e => .error e
    | .ok s => .ok (g.subgraph s)
  else .ok (g.subgraph path.toFinset)

/-- `path_edges = list(zip(path, path[1:]))` in `draw_network`. -/
def path_edges (path : List ℤ) : List (ℤ × ℤ) := path.zip path.tail

/-- The edge classification of `draw_network`: an edge `(u, v)` is drawn
on-path (red, wide) exactly when `(u, v) in path_edges or (v, u) in
path_edges`. -/
def edgeOnPath (path : List ℤ) (u v : ℤ) : Bool :=
  (path_edges path).contains (u, v) || (path_edges path).contains (v, u)

/-- Unordered pair, normalised as `(min, max)`. -/
def pnorm (u v : ℤ) : ℤ × ℤ := (min u v, max u v)

/-- The distinct unordered pairs occurring in an edge-list file. -/
def distinctPairs (lines : List (ℤ × ℤ)) : Finset (ℤ × ℤ) :=
  (lines.map (fun e => pnorm e.1 e.2)).toFinset

namespace Graph

/-- The set of edges of a graph, as normalised unordered pairs. -/
def edgeFinset (g : Graph) : Finset (ℤ × ℤ) :=
  g.adj.foldr (fun p acc => (p.2.map (pnorm p.1)).toFinset ∪ acc) ∅

/-- Well-formedness invariant maintained by networkx's `Graph`: the node
keys are distinct (dict keys), and adjacency is symmetric — whenever `v`
occurs in `u`'s neighbour list, `v` has an adjacency entry whose list
contains `u`. -/
def Wf (g : Graph) : Prop :=
  (g.adj.map Prod.fst).Nodup ∧
  ∀ p ∈ g.adj, ∀ v ∈ p.2, ∃ q ∈ g.adj, q.1 = v ∧ p.1 ∈ q.2

end Graph

instance (g : Graph) : Decidable g.Wf := by
  unfold Graph.Wf
  infer_instance

theorem density_formula (g : Graph) :
    g.density = if g.number_of_nodes ≤ 1 then 0
      else 2 * (g.number_of_edges : ℚ) /
        ((g.number_of_nodes : ℚ) * ((g.number_of_nodes : ℚ) - 1)) := by
  rw [Graph.density]
  by_cases hm : g.number_of_edges = 0 <;> by_cases hn : g.number_of_nodes ≤ 1 <;>
    simp [hm, hn]

theorem mem_zip_tail (l : List ℤ) (u v : ℤ) :
    (u, v) ∈ l.zip l.tail ↔ ∃ i : ℕ, l[i]? = some u ∧ l[i+1]? = some v := by
  induction l with
  | nil => simp
  | cons a t ih =>
    cases t with
    | nil => simp
    | cons b t' =>
      constructor
      · intro h
        rcases List.mem_cons.mp h with h | h
        · have h1 : u = a := congrArg Prod.fst h
          have h2 : v = b := congrArg Prod.snd h
          exact ⟨0, by simp [h1, h2]⟩
        · rcases (ih).mp h with ⟨i, h1, h2⟩
          exact ⟨i + 1, by simpa using h1, by simpa using h2⟩
      · rintro ⟨i, h1, h2⟩
        cases i with
        | zero =>
          simp at h1 h2
          simp [h1, h2]
        | succ j =>
          simp at h1 h2
          exact List.mem_cons_of_mem _ ((ih).mpr ⟨j, by simpa using h1, by simpa using h2⟩)

theorem edgeOnPath_iff (path : List ℤ) (u v : ℤ) :
    edgeOnPath path u v = true ↔
      (∃ i : ℕ, path[i]? = some u ∧ path[i+1]? = some v) ∨
      (∃ i : ℕ, path[i]? = some v ∧ path[i+1]? = some u) := by
  simp [edgeOnPath, path_edges, mem_zip_tail]

namespace Graph

theorem hasNode_iff (g : Graph) (u : ℤ) : g.hasNode u = true ↔ u ∈ g.nodes := by
  simp [hasNode]

theorem neighborsList_isSome_iff (g : Graph) (u : ℤ) :
    (g.neighborsList u).isSome = true ↔ u ∈ g.nodes := by
  simp [neighborsList, List.find?_isSome, nodes, List.mem_map]

theorem mem_nodes_subgraph (g : Graph) (s : Finset ℤ) (w : ℤ) :
    w ∈ (g.subgraph s).nodes ↔ w ∈ g.nodes ∧ w ∈ s := by
  simp only [subgraph, nodes, List.map_map, List.mem_map, List.mem_filter,
    Function.comp]
  constructor
  · rintro ⟨p, ⟨hp, hs⟩, rfl⟩
    exact ⟨⟨p, hp, rfl⟩, by simpa using hs⟩
  · rintro ⟨⟨p, hp, rfl⟩, hs⟩
    exact ⟨p, ⟨hp, by simpa using hs⟩, rfl⟩

theorem neighborsList_subgraph_not_mem (g : Graph) (s : Finset ℤ) (u : ℤ)
    (h : u ∉ s) : (g.subgraph s).neighborsList u = none := by
  simp only [subgraph, neighborsList]
  rw [List.find?_eq_none.mpr]
  · rfl
  · rintro ⟨a, l⟩ hm
    simp only [List.mem_map, List.mem_filter] at hm
    rcases hm with ⟨p, ⟨hp, hs⟩, he⟩
    have : a = p.1 := by
      have := congrArg Prod.fst he
      simpa using this.symm
    subst this
    simp only [beq_iff_eq]
    intro hau
    subst hau
    exact h (by simpa using hs)

theorem neighborsList_subgraph_mem (g : Graph) (s : Finset ℤ) (u : ℤ)
    (h : u ∈ s) :
    (g.subgraph s).neighborsList u =
      (g.neighborsList u).map (List.filter (fun v => decide (v ∈ s))) := by
  simp only [subgraph, neighborsList]
  induction g.adj with
  | nil => rfl
  | cons p rest ih =>
    by_cases hu : p.1 = u
    · subst hu
      simp [h, List.find?_cons]
    · by_cases hs : p.1 ∈ s
      · simpa [hs, List.find?_cons, beq_eq_false_iff_ne.mpr hu, hu] using ih
      · simpa [hs, List.find?_cons, beq_eq_false_iff_ne.mpr hu, hu] using ih

end Graph

theorem pySlice_sublist {α : Type} (l : List α) (k : ℤ) : (pySlice l k).Sublist l := by
  rw [pySlice]
  split <;> exact List.take_sublist _ _

theorem pySlice_length_le (l : List ℤ) (k : ℤ) (hk : 0 ≤ k) :
    (pySlice l k).length ≤ k.toNat := by
  rw [pySlice, if_pos hk]
  exact List.length_take_le _ _

theorem collectNeighbors_ok (g : Graph) (maxN : ℤ) (rest : List ℤ) :
    ∀ s : Finset ℤ, (∀ n ∈ rest, g.hasNode n = true) →
      ∃ s', collectNeighbors g maxN rest s = .ok s' ∧ s ⊆ s' ∧
        ∀ x ∈ s', x ∈ s ∨ ∃ p ∈ rest, x ∈ pySlice ((g.neighborsList p).getD []) maxN := by
  induction rest with
  | nil => exact fun s _ => ⟨s, rfl, Finset.Subset.refl s, fun x hx => Or.inl hx⟩
  | cons n rest ih =>
    intro s hall
    have hn : (g.neighborsList n).isSome = true := by
      rw [Graph.neighborsList_isSome_iff]
      exact (Graph.hasNode_iff g n).mp (hall n (List.mem_cons_self n rest))
    obtain ⟨nbrs, hnbrs⟩ := Option.isSome_iff_exists.mp hn
    obtain ⟨s', h1, h2, h3⟩ :=
      ih (s ∪ (pySlice nbrs maxN).toFinset) (fun m hm => hall m (List.mem_cons_of_mem _ hm))
    refine ⟨s', ?_, ?_, ?_⟩
    · rw [collectNeighbors, hnbrs]
      exact h1
    · exact fun x hx => h2 (Finset.mem_union_left _ hx)
    · intro x hx
      rcases h3 x hx with hx' | ⟨p, hp, hx'⟩
      · rcases Finset.mem_union.mp hx' with hx'' | hx''
        · exact Or.inl hx''
        · refine Or.inr ⟨n, List.mem_cons_self n rest, ?_⟩
          rw [hnbrs]
          simp only [Option.getD_some]
          exact List.mem_toFinset.mp hx''
      · exact Or.inr ⟨p, List.mem_cons_of_mem _ hp, hx'⟩

theorem collectNeighbors_error (g : Graph) (maxN : ℤ) (rest : List ℤ) :
    ∀ s : Finset ℤ, (∃ n ∈ rest, g.hasNode n = false) →
      collectNeighbors g maxN rest s = .error .nodeNotInGraph := by
  induction rest with
  | nil => rintro s ⟨n, h, -⟩; cases h
  | cons m rest ih =>
    rintro s ⟨n, hn, hbad⟩
    by_cases hm : g.hasNode m = true
    · have hms : (g.neighborsList m).isSome = true := by
        rw [Graph.neighborsList_isSome_iff]; exact (Graph.hasNode_iff g m).mp hm
      obtain ⟨nbrs, hnbrs⟩ := Option.isSome_iff_exists.mp hms
      rw [collectNeighbors, hnbrs]
      refine ih _ ⟨n, ?_, hbad⟩
      rcases List.mem_cons.mp hn with rfl | h
      · rw [hm] at hbad; cases hbad
      · exact h
    · have : g.neighborsList m = none := by
        rcases ho : g.neighborsList m with _ | l
        · rfl
        · exact absurd ((Graph.neighborsList_isSome_iff g m).mp (by rw [ho]; rfl) |>
            (Graph.hasNode_iff g m).mpr) hm
      rw [collectNeighbors, this]

theorem wf_mem_nodes_of_mem_nbrs (g : Graph) (hwf : g.Wf) (u v : ℤ) (l : List ℤ)
    (hl : g.neighborsList u = some l) (hv : v ∈ l) : v ∈ g.nodes := by
  rw [Graph.neighborsList] at hl
  rcases hf : g.adj.find? (fun p => p.1 == u) with _ | p
  · rw [hf] at hl; cases hl
  · rw [hf] at hl
    have hp : p ∈ g.adj := List.mem_of_find?_eq_some hf
    have hl2 : p.2 = l := by simpa using hl
    obtain ⟨q, hq, hq1, -⟩ := hwf.2 p hp v (by rw [hl2]; exact hv)
    exact hq1 ▸ List.mem_map_of_mem Prod.fst hq

theorem hasEdge_subgraph (g : Graph) (s : Finset ℤ) (u v : ℤ) (hwf : g.Wf) :
    (g.subgraph s).hasEdge u v = true ↔
      g.hasEdge u v = true ∧ u ∈ (g.subgraph s).nodes ∧ v ∈ (g.subgraph s).nodes := by
  by_cases hu : u ∈ s
  · rw [Graph.hasEdge, Graph.neighborsList_subgraph_mem g s u hu]
    rcases ho : g.neighborsList u with _ | l
    · simp [Graph.hasEdge, ho]
    · simp only [Option.map_some']
      have hun : u ∈ g.nodes := by
        rw [← Graph.neighborsList_isSome_iff, ho]; rfl
      constructor
      · intro h
        have hv : v ∈ l ∧ v ∈ s := by simpa using (List.elem_iff.mp h)
        refine ⟨by simp [Graph.hasEdge, ho, hv.1], ?_, ?_⟩
        · exact (Graph.mem_nodes_subgraph g s u).mpr ⟨hun, hu⟩
        · exact (Graph.mem_nodes_subgraph g s v).mpr
            ⟨wf_mem_nodes_of_mem_nbrs g hwf u v l ho hv.1, hv.2⟩
      · rintro ⟨he, -, hvn⟩
        have hv : v ∈ l := by simpa [Graph.hasEdge, ho] using he
        have hvs : v ∈ s := ((Graph.mem_nodes_subgraph g s v).mp hvn).2
        simp [hv, hvs]
  · rw [Graph.hasEdge, Graph.neighborsList_subgraph_not_mem g s u hu]
    constructor
    · intro h; cases h
    · rintro ⟨-, hun, -⟩
      exact absurd ((Graph.mem_nodes_subgraph g s u).mp hun).2 hu

theorem get_path_subgraph_ok_eq (g : Graph) (path : List ℤ) (flag : Bool) (C : ℤ)
    (sub : Graph) (h : get_path_subgraph g path flag C = .ok sub) :
    ∃ s : Finset ℤ, sub = g.subgraph s := by
  cases flag
  · exact ⟨path.toFinset, (Except.ok.inj h).symm⟩
  · rw [get_path_subgraph, if_pos rfl] at h
    rcases hc : collectNeighbors g C path path.toFinset with e | s
    · rw [hc] at h; cases h
    · rw [hc] at h
      exact ⟨s, (Except.ok.inj h).symm⟩

/-- C2 (amended): when `show_neighbors` is true, a path node absent from the
graph makes `get_path_subgraph` fail with networkx's node-not-in-graph error;
when `show_neighbors` is false, absent path nodes are silently dropped by
`graph.subgraph`.  Whenever every path node exists in the graph, extraction
succeeds and the subgraph's node set contains every node of the path, for
both values of the flag. -/
theorem C2_amended_path_nodes (g : Graph) (path : List ℤ) (C : ℤ) :
    ((∃ n ∈ path, g.hasNode n = false) →
      get_path_subgraph g path true C = .error PyError.nodeNotInGraph) ∧
    ((∀ n ∈ path, g.hasNode n = true) → ∀ flag : Bool,
      ∃ sub, get_path_subgraph g path flag C = .ok sub ∧ ∀ n ∈ path, n ∈ sub.nodes) := by
  constructor
  · intro h
    rw [get_path_subgraph, if_pos rfl, collectNeighbors_error g C path _ h]
  · intro hall flag
    cases flag
    · refine ⟨g.subgraph path.toFinset, rfl, fun n hn => ?_⟩
      exact (Graph.mem_nodes_subgraph g _ n).mpr
        ⟨(Graph.hasNode_iff g n).mp (hall n hn), List.mem_toFinset.mpr hn⟩
    · obtain ⟨s', h1, h2, h3⟩ := collectNeighbors_ok g C path path.toFinset hall
      refine ⟨g.subgraph s', ?_, fun n hn => ?_⟩
      · rw [get_path_subgraph, if_pos rfl, h1]
      · exact (Graph.mem_nodes_subgraph g _ n).mpr
          ⟨(Graph.hasNode_iff g n).mp (hall n hn), h2 (List.mem_toFinset.mpr hn)⟩

/-- C4: with `show_neighbors = false` and every path node present in the
graph, the node set of the subgraph returned by `get_path_subgraph` is
exactly the set of nodes appearing in the path. -/
theorem C4_no_neighbors_exact_nodes (g : Graph) (path : List ℤ) (C : ℤ)
    (hall : ∀ n ∈ path, g.hasNode n = true) :
    ∃ sub, get_path_subgraph g path false C = .ok sub ∧
      sub.nodes.toFinset = path.toFinset := by
  refine ⟨g.subgraph path.toFinset, rfl, ?_⟩
  ext x
  rw [List.mem_toFinset, Graph.mem_nodes_subgraph]
  constructor
  · rintro ⟨-, hx⟩; exact hx
  · intro hx
    exact ⟨(Graph.hasNode_iff g x).mp (hall x (List.mem_toFinset.mp hx)), hx⟩

/-- C3: with `show_neighbors = true`, a non-negative cap `C`, and every path
node present in the graph, extraction succeeds, the path is contained in the
output node set, every output node is a path node or one of the first-`C`
sliced neighbours of some path node, and each such neighbour slice has length
at most `C` — so each path node contributes at most `C` nodes beyond the
path. -/
theorem C3_neighbor_cap (g : Graph) (path : List ℤ) (C : ℤ) (hC : 0 ≤ C)
    (hall : ∀ n ∈ path, g.hasNode n = true) :
    ∃ sub, get_path_subgraph g path true C = .ok sub ∧
      (∀ n ∈ path, n ∈ sub.nodes) ∧
      (∀ x ∈ sub.nodes, x ∈ path ∨
        ∃ p ∈ path, x ∈ pySlice ((g.neighborsList p).getD []) C) ∧
      (∀ p : ℤ, (pySlice ((g.neighborsList p).getD []) C).length ≤ C.toNat) := by
  obtain ⟨s', h1, h2, h3⟩ := collectNeighbors_ok g C path path.toFinset hall
  refine ⟨g.subgraph s', by rw [get_path_subgraph, if_pos rfl, h1], fun n hn => ?_, ?_, ?_⟩
  · exact (Graph.mem_nodes_subgraph g _ n).mpr
      ⟨(Graph.hasNode_iff g n).mp (hall n hn), h2 (List.mem_toFinset.mpr hn)⟩
  · intro x hx
    have hxs : x ∈ s' := ((Graph.mem_nodes_subgraph g _ x).mp hx).2
    rcases h3 x hxs with hx' | hx'
    · exact Or.inl (List.mem_toFinset.mp hx')
    · exact Or.inr hx'
  · exact fun p => pySlice_length_le _ C hC

/-- C5: for every well-formed graph, path, flag and cap, when extraction
succeeds an edge is in the returned subgraph exactly when it is an edge of
the original graph with both endpoints in the subgraph's node set — the
output is the induced subgraph. -/
theorem C5_induced_edges (g : Graph) (path : List ℤ) (flag : Bool) (C : ℤ) (sub : Graph)
    (hwf : g.Wf) (h : get_path_subgraph g path flag C = .ok sub) (u v : ℤ) :
    sub.hasEdge u v = true ↔
      g.hasEdge u v = true ∧ u ∈ sub.nodes ∧ v ∈ sub.nodes := by
  obtain ⟨s, rfl⟩ := get_path_subgraph_ok_eq g path flag C sub h
  exact hasEdge_subgraph g s u v hwf

theorem find?_map_keyfix (l : List (ℤ × List ℤ)) (f : ℤ × List ℤ → ℤ × List ℤ)
    (hf : ∀ p, (f p).1 = p.1) (u : ℤ) :
    (l.map f).find? (fun p => p.1 == u) = (l.find? (fun p => p.1 == u)).map f := by
  induction l with
  | nil => rfl
  | cons p rest ih =>
    by_cases hp : p.1 = u
    · rw [List.map_cons, List.find?_cons_of_pos _ (by simp [hf, hp]),
        List.find?_cons_of_pos _ (by simp [hp])]
      rfl
    · rw [List.map_cons, List.find?_cons_of_neg _ (by simp [hf, hp]),
        List.find?_cons_of_neg _ (by simp [hp]), ih]

theorem find?_eq_of_mem_nodup (l : List (ℤ × List ℤ)) (u : ℤ) (nl : List ℤ)
    (hnodup : (l.map Prod.fst).Nodup) (hmem : (u, nl) ∈ l) :
    l.find? (fun p => p.1 == u) = some (u, nl) := by
  induction l with
  | nil => cases hmem
  | cons p rest ih =>
    rcases List.mem_cons.mp hmem with rfl | hmem'
    · exact List.find?_cons_of_pos _ (by simp)
    · have hkey : u ∈ rest.map Prod.fst := List.mem_map_of_mem Prod.fst hmem'
      have hpu : p.1 ≠ u := fun h => (List.nodup_cons.mp hnodup).1 (h ▸ hkey)
      rw [List.find?_cons_of_neg _ (by simp [hpu]),
        ih (List.nodup_cons.mp hnodup).2 hmem']

theorem key_entry_unique (l : List (ℤ × List ℤ))
    (hnodup : (l.map Prod.fst).Nodup) {p q : ℤ × List ℤ}
    (hp : p ∈ l) (hq : q ∈ l) (hk : p.1 = q.1) : p = q := by
  induction l with
  | nil => cases hp
  | cons a rest ih =>
    rcases List.mem_cons.mp hp with rfl | hp' <;>
      rcases List.mem_cons.mp hq with h | hq'
    · exact h ▸ rfl
    · exact absurd (hk ▸ List.mem_map_of_mem Prod.fst hq')
        (List.nodup_cons.mp hnodup).1
    · exact absurd (hk ▸ List.mem_map_of_mem Prod.fst hp')
        (h ▸ (List.nodup_cons.mp hnodup).1)
    · exact ih (List.nodup_cons.mp hnodup).2 hp' hq'

namespace Graph

theorem mem_of_neighborsList (g : Graph) (u : ℤ) (l : List ℤ)
    (h : g.neighborsList u = some l) : (u, l) ∈ g.adj := by
  rw [neighborsList] at h
  rcases hf : g.adj.find? (fun p => p.1 == u) with _ | p
  · rw [hf] at h; cases h
  · rw [hf] at h
    have h1 : p.1 = u := by simpa using List.find?_some hf
    have h2 : p.2 = l := by simpa using h
    have : p = (u, l) := by rw [← h1, ← h2]
    exact this ▸ List.mem_of_find?_eq_some hf

theorem neighborsList_of_mem (g : Graph) (u : ℤ) (nl : List ℤ)
    (hnodup : (g.adj.map Prod.fst).Nodup) (h : (u, nl) ∈ g.adj) :
    g.neighborsList u = some nl := by
  rw [neighborsList, find?_eq_of_mem_nodup g.adj u nl hnodup h]
  rfl

theorem neighborsList_eq_none_iff (g : Graph) (u : ℤ) :
    g.neighborsList u = none ↔ g.hasNode u = false := by
  constructor
  · intro h
    rcases hn : g.hasNode u with _ | _
    · rfl
    · have h2 := (neighborsList_isSome_iff g u).mpr ((hasNode_iff g u).mp hn)
      rw [h] at h2; cases h2
  · intro h
    rcases ho : g.neighborsList u with _ | l
    · rfl
    · have h1 : (g.neighborsList u).isSome = true := by rw [ho]; rfl
      have h2 := (hasNode_iff g u).mpr ((neighborsList_isSome_iff g u).mp h1)
      rw [h2] at h; cases h

theorem nodes_addNbr (g : Graph) (u v : ℤ) : (g.addNbr u v).nodes = g.nodes := by
  rw [addNbr, nodes, nodes, List.map_map]
  exact List.map_congr_left (fun p _ => by by_cases h : p.1 = u <;> simp [h])

theorem neighborsList_addNbr_self (g : Graph) (u v : ℤ) :
    (g.addNbr u v).neighborsList u =
      (g.neighborsList u).map (fun l => if l.contains v then l else l ++ [v]) := by
  rw [addNbr, neighborsList, neighborsList,
    find?_map_keyfix _ _ (fun p => by by_cases h : p.1 = u <;> simp [h]) u]
  rcases hf : g.adj.find? (fun p => p.1 == u) with _ | p
  · rw [hf]; rfl
  · have h1 : p.1 = u := by simpa using List.find?_some hf
    rw [hf]
    simp [h1]

theorem neighborsList_addNbr_other (g : Graph) (u v w : ℤ) (hw : w ≠ u) :
    (g.addNbr u v).neighborsList w = g.neighborsList w := by
  rw [addNbr, neighborsList, neighborsList,
    find?_map_keyfix _ _ (fun p => by by_cases h : p.1 = u <;> simp [h]) w]
  rcases hf : g.adj.find? (fun p => p.1 == w) with _ | p
  · rw [hf]; rfl
  · have h1 : p.1 = w := by simpa using List.find?_some hf
    rw [hf]
    simp [h1, hw]

theorem addNode_eq_of_hasNode (g : Graph) (u : ℤ) (h : g.hasNode u = true) :
    g.addNode u = g := by
  rw [addNode, if_pos h]

theorem nodes_addNode_fresh (g : Graph) (u : ℤ) (h : g.hasNode u = false) :
    (g.addNode u).nodes = g.nodes ++ [u] := by
  rw [addNode, if_neg (by simp [h]), nodes, nodes]
  simp

theorem neighborsList_addNode_fresh_self (g : Graph) (u : ℤ)
    (h : g.hasNode u = false) : (g.addNode u).neighborsList u = some [] := by
  rw [addNode, if_neg (by simp [h]), neighborsList, List.find?_append]
  have h0 : g.adj.find? (fun p => p.1 == u) = none := by
    have := (neighborsList_eq_none_iff g u).mpr h
    rw [neighborsList] at this
    exact Option.map_eq_none'.mp this
  rw [h0]
  simp

theorem neighborsList_addNode_other (g : Graph) (u w : ℤ) (hw : w ≠ u) :
    (g.addNode u).neighborsList w = g.neighborsList w := by
  rcases hn : g.hasNode u with _ | _
  · rw [addNode, if_neg (by simp [hn]), neighborsList, neighborsList,
      List.find?_append]
    have h1 : List.find? (fun p => p.1 == w) ([(u, [])] : List (ℤ × List ℤ)) = none := by
      simp [Ne.symm hw]
    rw [h1, Option.or_none]
  · rw [addNode_eq_of_hasNode g u hn]

end Graph

theorem pnorm_comm (u v : ℤ) : pnorm v u = pnorm u v := by
  rw [pnorm, pnorm, min_comm, max_comm]

theorem pnorm_inj (a b c d : ℤ) (h : pnorm a b = pnorm c d) :
    (a = c ∧ b = d) ∨ (a = d ∧ b = c) := by
  rw [pnorm, pnorm, Prod.mk.injEq, min_def, min_def, max_def, max_def] at h
  split_ifs at h <;> omega

namespace Graph

theorem mem_edgeFinset (g : Graph) (x : ℤ × ℤ) :
    x ∈ g.edgeFinset ↔ ∃ p ∈ g.adj, ∃ w ∈ p.2, pnorm p.1 w = x := by
  rw [edgeFinset]
  induction g.adj with
  | nil => simp
  | cons p rest ih =>
    simp only [List.foldr_cons, Finset.mem_union, ih, List.mem_cons,
      List.mem_toFinset, List.mem_map]
    constructor
    · rintro (⟨w, hw, rfl⟩ | ⟨q, hq, w, hw, rfl⟩)
      · exact ⟨p, Or.inl rfl, w, hw, rfl⟩
      · exact ⟨q, Or.inr hq, w, hw, rfl⟩
    · rintro ⟨q, (rfl | hq), w, hw, rfl⟩
      · exact Or.inl ⟨w, hw, rfl⟩
      · exact Or.inr ⟨q, hq, w, hw, rfl⟩

theorem hasEdge_iff_mem_edgeFinset (g : Graph) (u v : ℤ) (hwf : g.Wf) :
    g.hasEdge u v = true ↔ pnorm u v ∈ g.edgeFinset := by
  constructor
  · intro h
    rw [hasEdge] at h
    rcases ho : g.neighborsList u with _ | l
    · rw [ho] at h; cases h
    · rw [ho] at h
      have hv : v ∈ l := by simpa using h
      exact (mem_edgeFinset g _).mpr ⟨(u, l), g.mem_of_neighborsList u l ho, v, hv, rfl⟩
  · intro h
    obtain ⟨p, hp, w, hw, he⟩ := (mem_edgeFinset g _).mp h
    rcases pnorm_inj p.1 w u v he with ⟨h1, h2⟩ | ⟨h1, h2⟩
    · have : g.neighborsList u = some p.2 :=
        g.neighborsList_of_mem u p.2 hwf.1 (by rw [← h1]; exact hp)
      rw [hasEdge, this]
      simpa using h2 ▸ hw
    · obtain ⟨q, hq, hq1, hq2⟩ := hwf.2 p hp w hw
      have : g.neighborsList u = some q.2 :=
        g.neighborsList_of_mem u q.2 hwf.1 (by rw [← h2, ← hq1]; exact hq)
      rw [hasEdge, this]
      simpa using h1 ▸ hq2

theorem edgeFinset_addNode (g : Graph) (u : ℤ) (h : g.hasNode u = false) :
    (g.addNode u).edgeFinset = g.edgeFinset := by
  rw [addNode, if_neg (by simp [h]), edgeFinset, edgeFinset, List.foldr_append]
  simp

theorem degrees_sum_addNode (g : Graph) (u : ℤ) (h : g.hasNode u = false) :
    (g.addNode u).degrees.sum = g.degrees.sum := by
  rw [addNode, if_neg (by simp [h]), degrees, degrees]
  simp [degreeEntry]

end Graph

theorem sum_degrees_modif (u v : ℤ) (adj : List (ℤ × List ℤ)) :
    ∀ nl : List ℤ, (adj.map Prod.fst).Nodup → (u, nl) ∈ adj → v ∉ nl →
      ((adj.map (fun p =>
          if p.1 = u then (p.1, if p.2.contains v then p.2 else p.2 ++ [v]) else p)).map
        Graph.degreeEntry).sum
        = (adj.map Graph.degreeEntry).sum + (if v = u then 2 else 1) := by
  induction adj with
  | nil => intro nl _ h; cases h
  | cons p rest ih =>
    intro nl hnodup hmem hv
    have hc : nl.contains v = false := by simp [hv]
    rcases List.mem_cons.mp hmem with heq | hm
    · subst heq
      have hrest : rest.map (fun p =>
          if p.1 = u then (p.1, if p.2.contains v then p.2 else p.2 ++ [v]) else p) = rest := by
        rw [List.map_congr_left (fun q hq => ?_), List.map_id']
        have hqu : q.1 ≠ u := by
          intro h
          have hmm : (u : ℤ) ∈ rest.map Prod.fst := by
            rw [← h]
            exact List.mem_map_of_mem Prod.fst hq
          exact (List.nodup_cons.mp hnodup).1 hmm
        simp [hqu]
      have hhead : (if ((u, nl) : ℤ × List ℤ).1 = u then
          (((u, nl) : ℤ × List ℤ).1,
            if ((u, nl) : ℤ × List ℤ).2.contains v then ((u, nl) : ℤ × List ℤ).2
            else ((u, nl) : ℤ × List ℤ).2 ++ [v])
          else ((u, nl) : ℤ × List ℤ)) = (u, nl ++ [v]) := by
        simp [hv]
      rw [List.map_cons, List.map_cons, List.map_cons, List.sum_cons, List.sum_cons,
        hrest, hhead]
      have hd : Graph.degreeEntry (u, nl ++ [v])
          = Graph.degreeEntry (u, nl) + (if v = u then 2 else 1) := by
        rw [Graph.degreeEntry, Graph.degreeEntry]
        simp only [List.length_append, List.length_cons, List.length_nil]
        by_cases hvu : v = u
        · rw [if_pos hvu,
            if_pos (by rw [List.mem_append, List.mem_singleton]; exact Or.inr hvu.symm),
            if_neg (show (u : ℤ) ∉ nl by rw [← hvu]; exact hv)]
          try omega
        · rw [if_neg hvu]
          have e1 : ((u : ℤ) ∈ nl ++ [v]) ↔ u ∈ nl := by
            rw [List.mem_append, List.mem_singleton]
            exact or_iff_left (fun h => hvu h.symm)
          by_cases e2 : (u : ℤ) ∈ nl
          · rw [if_pos (e1.mpr e2), if_pos e2]
            try omega
          · rw [if_neg (fun hh => e2 (e1.mp hh)), if_neg e2]
            try omega
      rw [hd]
      omega
    · have hpu : p.1 ≠ u := by
        intro h
        apply (List.nodup_cons.mp hnodup).1
        rw [h]
        exact List.mem_map_of_mem Prod.fst hm
      rw [List.map_cons, List.map_cons, List.map_cons, List.sum_cons, List.sum_cons,
        if_neg hpu, ih nl (List.nodup_cons.mp hnodup).2 hm hv]
      omega

namespace Graph

theorem degrees_sum_addNbr (g : Graph) (u v : ℤ) (nl : List ℤ)
    (hnodup : (g.adj.map Prod.fst).Nodup) (hmem : (u, nl) ∈ g.adj) (hv : v ∉ nl) :
    (g.addNbr u v).degrees.sum = g.degrees.sum + (if v = u then 2 else 1) := by
  rw [addNbr, degrees, degrees]
  exact sum_degrees_modif u v g.adj nl hnodup hmem hv

theorem addNbr_eq_of_mem (g : Graph) (u v : ℤ) (nl : List ℤ)
    (hnodup : (g.adj.map Prod.fst).Nodup) (hmem : (u, nl) ∈ g.adj) (hv : v ∈ nl) :
    g.addNbr u v = g := by
  have hmap : g.adj.map (fun p =>
      if p.1 = u then (p.1, if p.2.contains v then p.2 else p.2 ++ [v]) else p) = g.adj := by
    rw [List.map_congr_left (fun q hq => ?_), List.map_id']
    by_cases hqu : q.1 = u
    · have : q = (u, nl) := key_entry_unique g.adj hnodup hq hmem (by rw [hqu])
      subst this
      simp [hv]
    · simp [hqu]
  rw [addNbr, hmap]

theorem edgeFinset_addNbr (g : Graph) (u v : ℤ) (nl : List ℤ)
    (hnodup : (g.adj.map Prod.fst).Nodup) (hmem : (u, nl) ∈ g.adj) (hv : v ∉ nl) :
    (g.addNbr u v).edgeFinset = insert (pnorm u v) g.edgeFinset := by
  have hc : nl.contains v = false := by simp [hv]
  ext x
  rw [mem_edgeFinset, Finset.mem_insert, mem_edgeFinset]
  constructor
  · rintro ⟨p', hp', w, hw, rfl⟩
    rw [addNbr] at hp'
    obtain ⟨q, hq, rfl⟩ := List.mem_map.mp hp'
    by_cases hqu : q.1 = u
    · have hquq : q = (u, nl) := key_entry_unique g.adj hnodup hq hmem (by rw [hqu])
      subst hquq
      rw [if_pos rfl, hc] at hw ⊢
      simp only [Bool.false_eq_true, if_false] at hw ⊢
      rcases List.mem_append.mp hw with hw' | hw'
      · exact Or.inr ⟨(u, nl), hmem, w, hw', rfl⟩
      · exact Or.inl (by rw [List.mem_singleton.mp hw'])
    · rw [if_neg hqu] at hw ⊢
      exact Or.inr ⟨q, hq, w, hw, rfl⟩
  · rintro (rfl | ⟨p, hp, w, hw, rfl⟩)
    · refine ⟨(u, nl ++ [v]), ?_, v, by simp, rfl⟩
      rw [addNbr]
      refine List.mem_map.mpr ⟨(u, nl), hmem, ?_⟩
      simp [hv]
    · by_cases hqu : p.1 = u
      · have hpq : p = (u, nl) := key_entry_unique g.adj hnodup hp hmem (by rw [hqu])
        subst hpq
        refine ⟨(u, nl ++ [v]), ?_, w, List.mem_append_left _ hw, rfl⟩
        rw [addNbr]
        refine List.mem_map.mpr ⟨(u, nl), hmem, ?_⟩
        simp [hv]
      · refine ⟨p, ?_, w, hw, rfl⟩
        rw [addNbr]
        refine List.mem_map.mpr ⟨p, hp, ?_⟩
        simp [hqu]

end Graph

namespace Graph

theorem hasNode_addNode_self (g : Graph) (u : ℤ) : (g.addNode u).hasNode u = true := by
  rcases hn : g.hasNode u with _ | _
  · rw [hasNode_iff, nodes_addNode_fresh g u hn]
    simp
  · rw [addNode_eq_of_hasNode g u hn, hn]

theorem neighborsList_addNode_getD (g : Graph) (u : ℤ) :
    (g.addNode u).neighborsList u = some ((g.neighborsList u).getD []) := by
  rcases hn : g.hasNode u with _ | _
  · rw [neighborsList_addNode_fresh_self g u hn,
      (neighborsList_eq_none_iff g u).mpr hn]
    rfl
  · rw [addNode_eq_of_hasNode g u hn]
    have h1 : (g.neighborsList u).isSome = true :=
      (neighborsList_isSome_iff g u).mpr ((hasNode_iff g u).mp hn)
    obtain ⟨l, hl⟩ := Option.isSome_iff_exists.mp h1
    rw [hl]
    rfl

theorem degrees_sum_addNode_any (g : Graph) (u : ℤ) :
    (g.addNode u).degrees.sum = g.degrees.sum := by
  rcases hn : g.hasNode u with _ | _
  · exact degrees_sum_addNode g u hn
  · rw [addNode_eq_of_hasNode g u hn]

theorem edgeFinset_addNode_any (g : Graph) (u : ℤ) :
    (g.addNode u).edgeFinset = g.edgeFinset := by
  rcases hn : g.hasNode u with _ | _
  · exact edgeFinset_addNode g u hn
  · rw [addNode_eq_of_hasNode g u hn]

theorem wf_addNode (g : Graph) (u : ℤ) (hwf : g.Wf) : (g.addNode u).Wf := by
  rcases hn : g.hasNode u with _ | _
  · rw [addNode, if_neg (by simp [hn])]
    constructor
    · rw [List.map_append]
      rw [List.nodup_append]
      refine ⟨hwf.1, by simp, ?_⟩
      intro a ha hb
      simp only [List.map_cons, List.map_nil, List.mem_singleton] at hb
      subst hb
      have : g.hasNode a = true := (hasNode_iff g a).mpr ha
      rw [hn] at this
      cases this
    · intro p hp w hw
      rcases List.mem_append.mp hp with hp' | hp'
      · obtain ⟨q, hq, hq1, hq2⟩ := hwf.2 p hp' w hw
        exact ⟨q, List.mem_append_left _ hq, hq1, hq2⟩
      · rw [List.mem_singleton.mp hp'] at hw
        cases hw
  · rw [addNode_eq_of_hasNode g u hn]
    exact hwf

theorem lookup_symm_of_wf (g : Graph) (hwf : g.Wf) :
    ∀ a b l, g.neighborsList a = some l → b ∈ l →
      ∃ l', g.neighborsList b = some l' ∧ a ∈ l' := by
  intro a b l hl hb
  obtain ⟨q, hq, hq1, hq2⟩ := hwf.2 (a, l) (mem_of_neighborsList g a l hl) b hb
  refine ⟨q.2, ?_, hq2⟩
  refine neighborsList_of_mem g b q.2 hwf.1 ?_
  rw [← hq1]
  exact hq

theorem wf_of_lookup_symm (g : Graph) (hnodup : (g.adj.map Prod.fst).Nodup)
    (hs : ∀ a b l, g.neighborsList a = some l → b ∈ l →
      ∃ l', g.neighborsList b = some l' ∧ a ∈ l') : g.Wf := by
  refine ⟨hnodup, fun p hp w hw => ?_⟩
  have hl : g.neighborsList p.1 = some p.2 := neighborsList_of_mem g p.1 p.2 hnodup hp
  obtain ⟨l', hl', ha⟩ := hs p.1 w p.2 hl hw
  exact ⟨(w, l'), mem_of_neighborsList g w l' hl', rfl, ha⟩

end Graph

namespace Graph

theorem add_edge_spec_new (g : Graph) (u v : ℤ) (hwf : g.Wf) (h : g.hasEdge u v = false) :
    (g.add_edge u v).Wf ∧
    (g.add_edge u v).degrees.sum = g.degrees.sum + 2 ∧
    (g.add_edge u v).edgeFinset = insert (pnorm u v) g.edgeFinset ∧
    (g.add_edge u v).neighborsList u = some ((g.neighborsList u).getD [] ++ [v]) ∧
    (g.add_edge u v).neighborsList v = some ((g.neighborsList v).getD [] ++ [u]) ∧
    (∀ w, w ≠ u → w ≠ v → (g.add_edge u v).neighborsList w = g.neighborsList w) := by
  have gsym := lookup_symm_of_wf g hwf
  have wf2 : ((g.addNode u).addNode v).Wf := wf_addNode _ v (wf_addNode g u hwf)
  have f2 : ((g.addNode u).addNode v).neighborsList u
      = some ((g.neighborsList u).getD []) := by
    by_cases hvu : v = u
    · subst hvu
      rw [addNode_eq_of_hasNode _ v (hasNode_addNode_self g v)]
      exact neighborsList_addNode_getD g v
    · rw [neighborsList_addNode_other (g.addNode u) v u (fun hh => hvu hh.symm)]
      exact neighborsList_addNode_getD g u
  have f3 : ((g.addNode u).addNode v).neighborsList v
      = some ((g.neighborsList v).getD []) := by
    have h1 := neighborsList_addNode_getD (g.addNode u) v
    by_cases hvu : v = u
    · subst hvu
      rw [neighborsList_addNode_getD g v] at h1
      simpa using h1
    · rw [neighborsList_addNode_other g u v hvu] at h1
      exact h1
  have fother2 : ∀ w, w ≠ u → w ≠ v →
      ((g.addNode u).addNode v).neighborsList w = g.neighborsList w := by
    intro w hwu hwv
    rw [neighborsList_addNode_other (g.addNode u) v w hwv,
      neighborsList_addNode_other g u w hwu]
  have hsum2 : ((g.addNode u).addNode v).degrees.sum = g.degrees.sum := by
    rw [degrees_sum_addNode_any, degrees_sum_addNode_any]
  have hedge2 : ((g.addNode u).addNode v).edgeFinset = g.edgeFinset := by
    rw [edgeFinset_addNode_any, edgeFinset_addNode_any]
  have hv_lu : v ∉ (g.neighborsList u).getD [] := by
    rcases ho : g.neighborsList u with _ | l
    · simp
    · simp only [Option.getD_some]
      intro hv
      have h2 : l.contains v = false := by rw [hasEdge, ho] at h; exact h
      have hv' : l.contains v = true := by simp [hv]
      rw [hv'] at h2
      cases h2
  have hu_lv : u ∉ (g.neighborsList v).getD [] := by
    rcases ho : g.neighborsList v with _ | l
    · simp
    · simp only [Option.getD_some]
      intro hu
      obtain ⟨l', hl', hvl'⟩ := gsym v u l ho hu
      have h2 : l'.contains v = false := by rw [hasEdge, hl'] at h; exact h
      have hv' : l'.contains v = true := by simp [hvl']
      rw [hv'] at h2
      cases h2
  have hlu_origin : ∀ b, b ∈ (g.neighborsList u).getD [] →
      ∃ l', g.neighborsList b = some l' ∧ u ∈ l' := by
    intro b hb
    rcases ho : g.neighborsList u with _ | gl
    · rw [ho] at hb; cases hb
    · rw [ho] at hb
      exact gsym u b gl ho (by simpa using hb)
  have hlv_origin : ∀ b, b ∈ (g.neighborsList v).getD [] →
      ∃ l', g.neighborsList b = some l' ∧ v ∈ l' := by
    intro b hb
    rcases ho : g.neighborsList v with _ | gl
    · rw [ho] at hb; cases hb
    · rw [ho] at hb
      exact gsym v b gl ho (by simpa using hb)
  have f7 : (u, (g.neighborsList u).getD []) ∈ ((g.addNode u).addNode v).adj :=
    mem_of_neighborsList _ _ _ f2
  have L3u : (((g.addNode u).addNode v).addNbr u v).neighborsList u
      = some ((g.neighborsList u).getD [] ++ [v]) := by
    rw [neighborsList_addNbr_self, f2]
    simp [hv_lu]
  have L3w : ∀ w, w ≠ u → (((g.addNode u).addNode v).addNbr u v).neighborsList w
      = ((g.addNode u).addNode v).neighborsList w := fun w hw =>
    neighborsList_addNbr_other _ u v w hw
  have hsum3 : (((g.addNode u).addNode v).addNbr u v).degrees.sum
      = g.degrees.sum + (if v = u then 2 else 1) := by
    rw [degrees_sum_addNbr _ u v _ wf2.1 f7 hv_lu, hsum2]
  have hedge3 : (((g.addNode u).addNode v).addNbr u v).edgeFinset
      = insert (pnorm u v) g.edgeFinset := by
    rw [edgeFinset_addNbr _ u v _ wf2.1 f7 hv_lu, hedge2]
  have hnodup3 : ((((g.addNode u).addNode v).addNbr u v).adj.map Prod.fst).Nodup := by
    have hn := nodes_addNbr ((g.addNode u).addNode v) u v
    rw [nodes, nodes] at hn
    rw [hn]
    exact wf2.1
  rw [add_edge]
  by_cases hvu : v = u
  · subst hvu
    have hmem3 := mem_of_neighborsList _ _ _ L3u
    have h44 := addNbr_eq_of_mem _ v v _ hnodup3 hmem3 (by simp)
    rw [h44]
    refine ⟨?_, by rw [hsum3]; simp, hedge3, L3u, L3u, ?_⟩
    · refine wf_of_lookup_symm _ hnodup3 ?_
      intro a b l hla hb
      by_cases hau : a = v
      · subst hau
        rw [L3u] at hla
        have hl : (g.neighborsList a).getD [] ++ [a] = l := Option.some.inj hla
        rw [← hl] at hb
        rcases List.mem_append.mp hb with hbl | hbu
        · by_cases hbu' : b = a
          · subst hbu'
            exact ⟨_, L3u, List.mem_append_right _ (by simp)⟩
          · obtain ⟨l', hl', hal'⟩ := hlu_origin b hbl
            refine ⟨l', ?_, hal'⟩
            rw [L3w b hbu', fother2 b hbu' hbu']
            exact hl'
        · have hbv : b = a := List.mem_singleton.mp hbu
          subst hbv
          exact ⟨_, L3u, List.mem_append_right _ (by simp)⟩
      · rw [L3w a hau, fother2 a hau hau] at hla
        obtain ⟨l', hl', hal'⟩ := gsym a b l hla hb
        by_cases hbu : b = v
        · subst hbu
          refine ⟨_, L3u, List.mem_append_left _ ?_⟩
          rw [hl']
          exact hal'
        · refine ⟨l', ?_, hal'⟩
          rw [L3w b hbu, fother2 b hbu hbu]
          exact hl'
    · intro w hw1 hw2
      rw [L3w w hw2, fother2 w hw2 hw2]
  · have L3v : (((g.addNode u).addNode v).addNbr u v).neighborsList v
        = some ((g.neighborsList v).getD []) := by
      rw [L3w v hvu, f3]
    have hmem3v : (v, (g.neighborsList v).getD [])
        ∈ (((g.addNode u).addNode v).addNbr u v).adj :=
      mem_of_neighborsList _ _ _ L3v
    have L4v : ((((g.addNode u).addNode v).addNbr u v).addNbr v u).neighborsList v
        = some ((g.neighborsList v).getD [] ++ [u]) := by
      rw [neighborsList_addNbr_self, L3v]
      simp [hu_lv]
    have L4w : ∀ w, w ≠ v →
        ((((g.addNode u).addNode v).addNbr u v).addNbr v u).neighborsList w
        = (((g.addNode u).addNode v).addNbr u v).neighborsList w := fun w hw =>
      neighborsList_addNbr_other _ v u w hw
    have L4u : ((((g.addNode u).addNode v).addNbr u v).addNbr v u).neighborsList u
        = some ((g.neighborsList u).getD [] ++ [v]) := by
      rw [L4w u (fun hh => hvu hh.symm), L3u]
    refine ⟨?_, ?_, ?_, L4u, L4v, ?_⟩
    · have hnodup4 : (((((g.addNode u).addNode v).addNbr u v).addNbr v u).adj.map
          Prod.fst).Nodup := by
        have hn := nodes_addNbr (((g.addNode u).addNode v).addNbr u v) v u
        rw [nodes, nodes] at hn
        rw [hn]
        exact hnodup3
      refine wf_of_lookup_symm _ hnodup4 ?_
      intro a b l hla hb
      by_cases hau : a = u
      · subst hau
        rw [L4u] at hla
        have hl : (g.neighborsList a).getD [] ++ [v] = l := Option.some.inj hla
        rw [← hl] at hb
        rcases List.mem_append.mp hb with hbl | hbv
        · by_cases hbu' : b = a
          · subst hbu'
            exact ⟨_, L4u, List.mem_append_left _ hbl⟩
          · by_cases hbv' : b = v
            · subst hbv'
              exact ⟨_, L4v, List.mem_append_right _ (by simp)⟩
            · obtain ⟨l', hl', hal'⟩ := hlu_origin b hbl
              refine ⟨l', ?_, hal'⟩
              rw [L4w b hbv', L3w b hbu', fother2 b hbu' hbv']
              exact hl'
        · have hbv2 : b = v := List.mem_singleton.mp hbv
          subst hbv2
          exact ⟨_, L4v, List.mem_append_right _ (by simp)⟩
      · by_cases hav : a = v
        · subst hav
          rw [L4v] at hla
          have hl : (g.neighborsList a).getD [] ++ [u] = l := Option.some.inj hla
          rw [← hl] at hb
          rcases List.mem_append.mp hb with hbl | hbu
          · by_cases hbu' : b = u
            · subst hbu'
              exact ⟨_, L4u, List.mem_append_right _ (by simp)⟩
            · by_cases hbv' : b = a
              · subst hbv'
                exact ⟨_, L4v, List.mem_append_left _ hbl⟩
              · obtain ⟨l', hl', hal'⟩ := hlv_origin b hbl
                refine ⟨l', ?_, hal'⟩
                rw [L4w b hbv', L3w b hbu', fother2 b hbu' hbv']
                exact hl'
          · have hbu2 : b = u := List.mem_singleton.mp hbu
            subst hbu2
            exact ⟨_, L4u, List.mem_append_right _ (by simp)⟩
        · rw [L4w a hav, L3w a hau, fother2 a hau hav] at hla
          obtain ⟨l', hl', hal'⟩ := gsym a b l hla hb
          by_cases hbu : b = u
          · subst hbu
            refine ⟨_, L4u, List.mem_append_left _ ?_⟩
            rw [hl']
            exact hal'
          · by_cases hbv : b = v
            · subst hbv
              refine ⟨_, L4v, List.mem_append_left _ ?_⟩
              rw [hl']
              exact hal'
            · refine ⟨l', ?_, hal'⟩
              rw [L4w b hbv, L3w b hbu, fother2 b hbu hbv]
              exact hl'
    · rw [degrees_sum_addNbr _ v u _ hnodup3 hmem3v hu_lv, hsum3,
        if_neg hvu, if_neg (fun hh => hvu hh.symm)]
      try omega
    · rw [edgeFinset_addNbr _ v u _ hnodup3 hmem3v hu_lv, hedge3, pnorm_comm,
        Finset.insert_idem]
    · intro w hw1 hw2
      rw [L4w w hw2, L3w w hw1, fother2 w hw1 hw2]

end Graph

namespace Graph

theorem add_edge_eq_of_hasEdge (g : Graph) (u v : ℤ) (hwf : g.Wf)
    (h : g.hasEdge u v = true) : g.add_edge u v = g := by
  rcases ho : g.neighborsList u with _ | l
  · rw [hasEdge, ho] at h; cases h
  · have hv : v ∈ l := by
      have h2 : l.contains v = true := by rw [hasEdge, ho] at h; exact h
      simpa using h2
    have hul : (u, l) ∈ g.adj := mem_of_neighborsList g u l ho
    have hnu : g.hasNode u = true :=
      (hasNode_iff g u).mpr ((neighborsList_isSome_iff g u).mp (by rw [ho]; rfl))
    obtain ⟨l', hl', hul'⟩ := lookup_symm_of_wf g hwf u v l ho hv
    have hnv : g.hasNode v = true :=
      (hasNode_iff g v).mpr ((neighborsList_isSome_iff g v).mp (by rw [hl']; rfl))
    have hvl : (v, l') ∈ g.adj := mem_of_neighborsList g v l' hl'
    rw [add_edge, addNode_eq_of_hasNode g u hnu, addNode_eq_of_hasNode g v hnv,
      addNbr_eq_of_mem g u v l hwf.1 hul hv, addNbr_eq_of_mem g v u l' hwf.1 hvl hul']

end Graph

theorem distinctPairs_cons (e : ℤ × ℤ) (rest : List (ℤ × ℤ)) :
    distinctPairs (e :: rest) = insert (pnorm e.1 e.2) (distinctPairs rest) := by
  rw [distinctPairs, distinctPairs, List.map_cons, List.toFinset_cons]

theorem load_fold_inv (lines : List (ℤ × ℤ)) :
    ∀ g : Graph, g.Wf → g.degrees.sum = 2 * g.edgeFinset.card →
      (lines.foldl (fun g e => g.add_edge e.1 e.2) g).Wf ∧
      (lines.foldl (fun g e => g.add_edge e.1 e.2) g).degrees.sum
        = 2 * (lines.foldl (fun g e => g.add_edge e.1 e.2) g).edgeFinset.card ∧
      (lines.foldl (fun g e => g.add_edge e.1 e.2) g).edgeFinset
        = g.edgeFinset ∪ distinctPairs lines := by
  induction lines with
  | nil =>
    intro g hwf hsum
    exact ⟨hwf, hsum, by simp [distinctPairs]⟩
  | cons e rest ih =>
    intro g hwf hsum
    rw [List.foldl_cons]
    by_cases he : g.hasEdge e.1 e.2 = true
    · rw [Graph.add_edge_eq_of_hasEdge g e.1 e.2 hwf he]
      obtain ⟨h1, h2, h3⟩ := ih g hwf hsum
      refine ⟨h1, h2, ?_⟩
      rw [h3, distinctPairs_cons, Finset.union_insert,
        Finset.insert_eq_self.mpr
          (Finset.mem_union_left _
            ((Graph.hasEdge_iff_mem_edgeFinset g e.1 e.2 hwf).mp he))]
    · obtain ⟨hwf', hsum', hedge', -, -, -⟩ :=
        Graph.add_edge_spec_new g e.1 e.2 hwf (Bool.eq_false_iff.mpr he)
      have hx : pnorm e.1 e.2 ∉ g.edgeFinset :=
        fun hmem => he ((Graph.hasEdge_iff_mem_edgeFinset g e.1 e.2 hwf).mpr hmem)
      have hcard : (g.add_edge e.1 e.2).edgeFinset.card = g.edgeFinset.card + 1 := by
        rw [hedge', Finset.card_insert_of_not_mem hx]
      have hsum2 : (g.add_edge e.1 e.2).degrees.sum
          = 2 * (g.add_edge e.1 e.2).edgeFinset.card := by
        rw [hsum', hsum, hcard]
        ring
      obtain ⟨h1, h2, h3⟩ := ih (g.add_edge e.1 e.2) hwf' hsum2
      refine ⟨h1, h2, ?_⟩
      rw [h3, hedge', distinctPairs_cons, Finset.insert_union, Finset.union_insert]

theorem emptyGraph_wf : (Graph.mk []).Wf := by
  constructor
  · simp
  · intro p hp
    cases hp

theorem load_graph_wf (lines : List (ℤ × ℤ)) : (load_graph lines).Wf :=
  (load_fold_inv lines ⟨[]⟩ emptyGraph_wf (by rfl)).1

theorem load_graph_edgeFinset (lines : List (ℤ × ℤ)) :
    (load_graph lines).edgeFinset = distinctPairs lines := by
  have h := (load_fold_inv lines ⟨[]⟩ emptyGraph_wf (by rfl)).2.2
  rw [load_graph, h]
  have : (Graph.mk []).edgeFinset = ∅ := rfl
  rw [this, Finset.empty_union]

theorem load_graph_handshake (lines : List (ℤ × ℤ)) :
    (load_graph lines).degrees.sum = 2 * (distinctPairs lines).card := by
  have h := (load_fold_inv lines ⟨[]⟩ emptyGraph_wf (by rfl)).2.1
  rw [load_graph, h, ← load_graph, load_graph_edgeFinset]

theorem load_graph_append_edge (lines : List (ℤ × ℤ)) (u v : ℤ) :
    load_graph (lines ++ [(u, v)]) = (load_graph lines).add_edge u v := by
  rw [load_graph, load_graph, List.foldl_append]
  rfl

/-- C7: for every edge-list file, the loaded graph's edge count equals the
number of distinct unordered pairs listed in the file (duplicate lines
collapse), and the sum of the degrees collected by the statistics step is
exactly twice the edge count. -/
theorem C7_edge_count_handshake (lines : List (ℤ × ℤ)) :
    (load_graph lines).number_of_edges = (distinctPairs lines).card ∧
    (load_graph lines).degrees.sum = 2 * (load_graph lines).number_of_edges := by
  have h := load_graph_handshake lines
  constructor
  · rw [Graph.number_of_edges, h]
    omega
  · rw [Graph.number_of_edges, h]
    omega

/-- C9 (amended): a line duplicating an already-loaded unordered pair leaves
the loaded graph completely unchanged; but a self-loop line `(u, u)` is not a
no-op: when the loop is not already present it adds a self-loop edge, raising
the edge count by one and the degree of `u` by two. -/
theorem C9_amended_selfloop (lines : List (ℤ × ℤ)) (u v : ℤ) :
    (pnorm u v ∈ distinctPairs lines →
      load_graph (lines ++ [(u, v)]) = load_graph lines) ∧
    (pnorm u u ∉ distinctPairs lines →
      (load_graph (lines ++ [(u, u)])).number_of_edges
        = (load_graph lines).number_of_edges + 1 ∧
      (load_graph (lines ++ [(u, u)])).degreeOf u
        = (load_graph lines).degreeOf u + 2) := by
  have hwf := load_graph_wf lines
  constructor
  · intro hmem
    rw [load_graph_append_edge]
    refine Graph.add_edge_eq_of_hasEdge _ u v hwf ?_
    rw [Graph.hasEdge_iff_mem_edgeFinset _ u v hwf, load_graph_edgeFinset]
    exact hmem
  · intro hmem
    have hne : (load_graph lines).hasEdge u u = false := by
      rw [Bool.eq_false_iff]
      intro hc
      exact hmem (by
        rw [← load_graph_edgeFinset]
        exact (Graph.hasEdge_iff_mem_edgeFinset _ u u hwf).mp hc)
    obtain ⟨-, hsum', hedge', hlook, -, -⟩ :=
      Graph.add_edge_spec_new (load_graph lines) u u hwf hne
    have hx : pnorm u u ∉ (load_graph lines).edgeFinset := by
      rw [load_graph_edgeFinset]
      exact hmem
    constructor
    · rw [load_graph_append_edge, Graph.number_of_edges, Graph.number_of_edges,
        hsum', load_graph_handshake]
      have hcard := load_graph_handshake lines
      omega
    · rw [load_graph_append_edge, Graph.degreeOf, hlook]
      rcases ho : (load_graph lines).neighborsList u with _ | l
      · rw [Graph.degreeOf, ho]
        simp
      · rw [Graph.degreeOf, ho]
        have hul : u ∉ l := by
          intro hc
          have hc2 : (load_graph lines).hasEdge u u = true := by
            rw [Graph.hasEdge, ho]
            simp [hc]
          rw [hc2] at hne
          cases hne
        show (l ++ [u]).length + (if u ∈ l ++ [u] then 1 else 0)
          = (l.length + if u ∈ l then 1 else 0) + 2
        rw [List.length_append, if_pos (by simp : u ∈ l ++ [u]), if_neg hul]
        simp

/-- C1: the statistics routine has no empty-graph guard — on the graph with
zero nodes it evaluates `statistics.mean` over the empty degree list, which
is what fails (with `StatisticsError`), rather than an explicit empty-graph
check reporting and aborting beforehand. -/
theorem C1_empty_graph_stats :
    get_and_print_stats (load_graph []) = .error PyError.statisticsError ∧
    statsMean (load_graph []).degrees = .error PyError.statisticsError :=
  ⟨rfl, rfl⟩

/-- C6: the renderer classifies an edge as on-path exactly when its endpoints
form a consecutive pair of the path, in either orientation; in particular for
path `[0, 1, 2]` the edge `(1, 2)` is on-path while `(1, 5)` and `(5, 1)` are
context. -/
theorem C6_edge_classification :
    (∀ (path : List ℤ) (u v : ℤ),
        edgeOnPath path u v = true ↔
          (∃ i : ℕ, path[i]? = some u ∧ path[i + 1]? = some v) ∨
          (∃ i : ℕ, path[i]? = some v ∧ path[i + 1]? = some u)) ∧
    edgeOnPath [0, 1, 2] 1 2 = true ∧
    edgeOnPath [0, 1, 2] 1 5 = false ∧
    edgeOnPath [0, 1, 2] 5 1 = false :=
  ⟨edgeOnPath_iff, by decide, by decide, by decide⟩

theorem chain_degrees : (load_graph [(0, 1), (1, 2), (2, 3)]).degrees = [1, 2, 2, 1] := by
  decide

theorem chain_mean : statsMean [1, 2, 2, 1] = .ok (3 / 2) := by
  simp [statsMean]
  norm_num

theorem chain_median : statsMedian [1, 2, 2, 1] = .ok (3 / 2) := by
  simp [statsMedian]
  norm_num [List.mergeSort]

theorem chain_density : (load_graph [(0, 1), (1, 2), (2, 3)]).density = 1 / 2 := by
  have h1 : (load_graph [(0, 1), (1, 2), (2, 3)]).number_of_edges = 3 := by decide
  have h2 : (load_graph [(0, 1), (1, 2), (2, 3)]).number_of_nodes = 4 := by decide
  rw [Graph.density, h1, h2]
  norm_num

/-- C8: `nx.density` equals `2E / (N(N-1))` for more than one node and `0`
otherwise; mean and median are the exact statistics of the degree list; and
on the 4-node chain loaded from the lines `0 1`, `1 2`, `2 3` the computation
returns 4 nodes, 3 edges, density 1/2, degrees `[1, 2, 2, 1]` for nodes
`[0, 1, 2, 3]`, mean 1.5, median 1.5 and maximum degree 2. -/
theorem C8_stats_chain :
    (∀ g : Graph, g.density = if g.number_of_nodes ≤ 1 then 0
      else 2 * (g.number_of_edges : ℚ) /
        ((g.number_of_nodes : ℚ) * ((g.number_of_nodes : ℚ) - 1))) ∧
    get_and_print_stats (load_graph [(0, 1), (1, 2), (2, 3)]) =
      .ok ⟨4, 3, 1 / 2, [1, 2, 2, 1], 3 / 2, 3 / 2, 2⟩ ∧
    (load_graph [(0, 1), (1, 2), (2, 3)]).nodes = [0, 1, 2, 3] := by
  refine ⟨density_formula, ?_, by decide⟩
  simp only [get_and_print_stats, chain_degrees, chain_mean, chain_median,
    chain_density, bind, Except.bind, listMax]
  rfl

/-- C10: a negative cap is neither treated as zero nor an error — the Python
slice `neighbors[:max_neighbors]` with a negative bound keeps all enumerated
neighbours except the last `|max_neighbors|`, so with cap `-1` on a star with
three leaves the extraction succeeds and returns neighbour nodes beyond the
path (nodes 1 and 2, dropping only the last neighbour 3), unlike cap `0`. -/
theorem C10_negative_cap :
    pySlice ([1, 2, 3] : List ℤ) (-1) = [1, 2] ∧
    get_path_subgraph (load_graph [(0, 1), (0, 2), (0, 3)]) [0] true (-1) =
      .ok ⟨[(0, [1, 2]), (1, [0]), (2, [0])]⟩ ∧
    get_path_subgraph (load_graph [(0, 1), (0, 2), (0, 3)]) [0] true 0 =
      .ok ⟨[(0, [])]⟩ ∧
    (1 : ℤ) ∉ ([0] : List ℤ) ∧ (2 : ℤ) ∉ ([0] : List ℤ) :=
  ⟨by decide, rfl, rfl, by decide, by decide⟩

/-- C2 counterexample: with `show_neighbors = false`, node 5 of the path
`[0, 5]` is absent from the single-edge graph, yet extraction succeeds (no
not-found error) and the returned subgraph's node set `[0]` does not contain
node 5 — the absent node is silently dropped. -/
theorem C2_counterexample :
    get_path_subgraph (load_graph [(0, 1)]) [0, 5] false 20 = .ok ⟨[(0, [])]⟩ ∧
    (5 : ℤ) ∈ ([0, 5] : List ℤ) ∧
    (load_graph [(0, 1)]).hasNode 5 = false ∧
    (5 : ℤ) ∉ (Graph.mk [(0, [])]).nodes :=
  ⟨rfl, by decide, by decide, by decide⟩

theorem C2_amended_path_nodes_witness :
    get_path_subgraph (load_graph [(0, 1)]) [0, 5] true 20 =
      .error PyError.nodeNotInGraph ∧
    ∃ sub, get_path_subgraph (load_graph [(0, 1)]) [0, 1] false 20 = .ok sub ∧
      ∀ n ∈ ([0, 1] : List ℤ), n ∈ sub.nodes :=
  ⟨(C2_amended_path_nodes (load_graph [(0, 1)]) [0, 5] 20).1
      ⟨5, by decide, by decide⟩,
    (C2_amended_path_nodes (load_graph [(0, 1)]) [0, 1] 20).2 (by decide) false⟩

theorem C3_neighbor_cap_witness :
    ∃ sub, get_path_subgraph (load_graph [(0, 1), (0, 2)]) [0] true 1 = .ok sub ∧
      (∀ n ∈ ([0] : List ℤ), n ∈ sub.nodes) ∧
      (∀ x ∈ sub.nodes, x ∈ ([0] : List ℤ) ∨
        ∃ p ∈ ([0] : List ℤ),
          x ∈ pySlice (((load_graph [(0, 1), (0, 2)]).neighborsList p).getD []) 1) ∧
      (∀ p : ℤ,
        (pySlice (((load_graph [(0, 1), (0, 2)]).neighborsList p).getD []) 1).length
          ≤ (1 : ℤ).toNat) :=
  C3_neighbor_cap (load_graph [(0, 1), (0, 2)]) [0] 1 (by decide) (by decide)

theorem C4_no_neighbors_exact_nodes_witness :
    ∃ sub, get_path_subgraph (load_graph [(0, 1), (1, 2)]) [0, 1] false 20 = .ok sub ∧
      sub.nodes.toFinset = ([0, 1] : List ℤ).toFinset :=
  C4_no_neighbors_exact_nodes (load_graph [(0, 1), (1, 2)]) [0, 1] 20 (by decide)

theorem C5_induced_edges_witness :
    (Graph.mk [(0, [1]), (1, [0])]).hasEdge 0 1 = true ↔
      ((load_graph [(0, 1), (1, 2)]).hasEdge 0 1 = true ∧
        (0 : ℤ) ∈ (Graph.mk [(0, [1]), (1, [0])]).nodes ∧
        (1 : ℤ) ∈ (Graph.mk [(0, [1]), (1, [0])]).nodes) :=
  C5_induced_edges (load_graph [(0, 1), (1, 2)]) [0, 1] false 20
    ⟨[(0, [1]), (1, [0])]⟩ (by decide) rfl 0 1

/-- C9 counterexample: appending the self-loop line `5 5` to the file
`[(0, 1)]` does not leave the loaded graph unchanged — the edge count rises
from 1 to 2 and node 5 appears with degree 2 (the loop counts twice). -/
theorem C9_counterexample :
    (load_graph [(0, 1), (5, 5)]).number_of_edges = 2 ∧
    (load_graph [(0, 1)]).number_of_edges = 1 ∧
    (load_graph [(0, 1), (5, 5)]).degrees = [1, 1, 2] ∧
    (load_graph [(0, 1)]).degrees = [1, 1] ∧
    load_graph [(0, 1), (5, 5)] ≠ load_graph [(0, 1)] :=
  ⟨by decide, by decide, by decide, by decide, by decide⟩

theorem C9_amended_selfloop_witness :
    (load_graph ([(0, 1)] ++ [(0, 1)]) = load_graph [(0, 1)]) ∧
    ((load_graph ([(0, 1)] ++ [(5, 5)])).number_of_edges
        = (load_graph [(0, 1)]).number_of_edges + 1 ∧
      (load_graph ([(0, 1)] ++ [(5, 5)])).degreeOf 5
        = (load_graph [(0, 1)]).degreeOf 5 + 2) :=
  ⟨(C9_amended_selfloop [(0, 1)] 0 1).1 (by decide),
    (C9_amended_selfloop [(0, 1)] 5 5).2 (by decide)⟩
